import Mathlib

/-!
Verification of `segmentation/predict.py`.

This file gives a shallow embedding of the pure computational content of the
module and proves the specified properties about it.

Modelling conventions:
* Python strings are `List Char`; filesystem interaction (`glob`,
  `os.path.normpath`) is abstracted by passing the already-globbed,
  already-normalised file list and checkpoint path as arguments.
* numpy arrays are lists (`List ℕ`, `List (List ℕ)`, grids of RGB triples);
  float64 arithmetic whose values stay exact (sums of small integers, exact
  halves, rational IoU formulas) is carried out in `ℕ` / `ℚ`.
* external collaborators (the model's `predict`, `cv2.putText`, the default
  `cv2.resize` interpolation, `get_image_array` from the data loader, file
  writing) are parameters of the embedding; everything implemented inside
  `predict.py` is translated directly.
* Python `assert` / `raise` are `Except String`.
-/

namespace Predict

/-! ## Python string primitives used by `find_latest_checkpoint` -/

/-- Recursion worker for `strReplace`.  `fuel` only bounds the recursion depth
(each step consumes at least one character when `pat` is non-empty, so
`fuel = s.length` always suffices); it keeps the recursion structural so that
the definition evaluates by kernel reduction. -/
def strReplaceGo (pat rep : List Char) : ℕ → List Char → List Char
  | _, [] => []
  | 0, s => s
  | fuel + 1, c :: cs =>
    if pat ≠ [] ∧ pat.isPrefixOf (c :: cs) then
      rep ++ strReplaceGo pat rep fuel ((c :: cs).drop pat.length)
    else
      c :: strReplaceGo pat rep fuel cs

/-- Python `str.replace(pat, rep)`: replace all non-overlapping occurrences of
`pat`, scanning left to right.  (For an empty pattern we return the string
unchanged; all call sites in the source use non-empty patterns.) -/
def strReplace (s pat rep : List Char) : List Char :=
  strReplaceGo pat rep s.length s

/-- Python `str.strip(t)` for a single-character strip set: remove all leading
and trailing occurrences of `t`. -/
def pyStrip (s : List Char) (t : Char) : List Char :=
  ((s.dropWhile (· = t)).reverse.dropWhile (· = t)).reverse

/-- Python `str.isdigit()` (restricted to ASCII digits, the only characters the
checkpoint suffixes contain): non-empty and all characters are digits. -/
def pyIsDigit (s : List Char) : Bool :=
  !s.isEmpty && s.all Char.isDigit

/-- Python `int(s)` on a digit string. -/
def parseNat (s : List Char) : ℕ :=
  s.foldl (fun n c => n * 10 + (c.toNat - '0'.toNat)) 0

/-- Python `max(l, key)` on a non-empty list: the first element whose key is
maximal (later elements replace the current best only on strictly greater
key). -/
def pyMax (key : α → ℕ) : List α → Option α
  | [] => none
  | x :: xs => some (xs.foldl (fun b y => if key y > key b then y else b) x)

/-! ## `find_latest_checkpoint` -/

/-- `get_epoch_number_from_path` (inner function of `find_latest_checkpoint`):
`path.replace(os.path.normpath(checkpoints_path), "").strip(".")`.
`checkpoints_path` is taken already normalised. -/
def get_epoch_number_from_path (checkpoints_path path : List Char) : List Char :=
  pyStrip (strReplace path checkpoints_path []) '.'

/-- The candidate list built inside `find_latest_checkpoint`: the globbed
files with every `".index"` removed, filtered to those whose epoch-number part
is a pure number. -/
def checkpointCandidates (checkpoints_path : List Char) (files : List (List Char)) :
    List (List Char) :=
  (files.map (fun f => strReplace f ".index".toList [])).filter
    (fun f => pyIsDigit (get_epoch_number_from_path checkpoints_path f))

/-- `find_latest_checkpoint(checkpoints_path, fail_safe)`.  `files` is the
result of the glob (already normalised paths).  A Python `raise` is
`Except.error`; the fail-safe `return None` is `Except.ok none`. -/
def find_latest_checkpoint (checkpoints_path : List Char) (files : List (List Char))
    (fail_safe : Bool := true) : Except String (Option (List Char)) :=
  let candidates := checkpointCandidates checkpoints_path files
  if candidates.isEmpty then
    if !fail_safe then
      Except.error "Checkpoint path invalid"
    else
      Except.ok none
  else
    Except.ok (pyMax (fun f => parseNat (get_epoch_number_from_path checkpoints_path f))
      candidates)

/-! ### Properties of `pyMax` -/

lemma foldlMax_mem (key : α → ℕ) (xs : List α) : ∀ x : α,
    xs.foldl (fun b y => if key y > key b then y else b) x ∈ x :: xs := by
  induction xs with
  | nil => intro x; simp
  | cons y ys ih =>
    intro x
    simp only [List.foldl_cons]
    rcases List.mem_cons.mp (ih (if key y > key x then y else x)) with h1 | h1
    · rw [h1]
      by_cases hk : key y > key x
      · rw [if_pos hk]
        exact List.mem_cons_of_mem _ (List.mem_cons_self _ _)
      · rw [if_neg hk]
        exact List.mem_cons_self _ _
    · exact List.mem_cons_of_mem _ (List.mem_cons_of_mem _ h1)

lemma foldlMax_le (key : α → ℕ) (xs : List α) : ∀ x z, z ∈ x :: xs →
    key z ≤ key (xs.foldl (fun b y => if key y > key b then y else b) x) := by
  induction xs with
  | nil =>
    intro x z hz
    rw [List.mem_singleton] at hz
    subst hz
    exact le_refl _
  | cons y ys ih =>
    intro x z hz
    simp only [List.foldl_cons]
    have hxx : key x ≤ key (if key y > key x then y else x) := by
      by_cases h : key y > key x
      · rw [if_pos h]; exact le_of_lt h
      · rw [if_neg h]
    have hyy : key y ≤ key (if key y > key x then y else x) := by
      by_cases h : key y > key x
      · rw [if_pos h]
      · rw [if_neg h]; exact Nat.le_of_not_lt h
    have hbase := ih (if key y > key x then y else x) (if key y > key x then y else x)
      (List.mem_cons_self _ _)
    rcases List.mem_cons.mp hz with h1 | h1
    · subst h1; exact le_trans hxx hbase
    rcases List.mem_cons.mp h1 with h2 | h2
    · subst h2; exact le_trans hyy hbase
    · exact ih _ z (List.mem_cons_of_mem _ h2)

lemma pyMax_spec (key : α → ℕ) (l : List α) (m : α) (h : pyMax key l = some m) :
    m ∈ l ∧ ∀ x ∈ l, key x ≤ key m := by
  cases l with
  | nil => simp [pyMax] at h
  | cons x xs =>
    simp only [pyMax, Option.some.injEq] at h
    subst h
    exact ⟨foldlMax_mem key xs x, fun z hz => foldlMax_le key xs x z hz⟩

/-- C2: `find_latest_checkpoint` keeps only entries whose suffix relative to
the path (after stripping `.index` and surrounding dots) is a pure
non-negative integer, and any entry it returns is one of those candidates and
has the numerically maximal integer among them. -/
theorem find_latest_checkpoint_selects_numeric_max
    (cp : List Char) (files : List (List Char)) (fs : Bool) (r : List Char)
    (h : find_latest_checkpoint cp files fs = Except.ok (some r)) :
    (∀ f ∈ checkpointCandidates cp files,
      pyIsDigit (get_epoch_number_from_path cp f) = true) ∧
    r ∈ checkpointCandidates cp files ∧
    ∀ f ∈ checkpointCandidates cp files,
      parseNat (get_epoch_number_from_path cp f) ≤
        parseNat (get_epoch_number_from_path cp r) := by
  have hdigit : ∀ f ∈ checkpointCandidates cp files,
      pyIsDigit (get_epoch_number_from_path cp f) = true := by
    intro f hf
    exact (List.mem_filter.mp hf).2
  unfold find_latest_checkpoint at h
  by_cases hemp : (checkpointCandidates cp files).isEmpty
  · rw [if_pos hemp] at h
    cases fs <;> simp_all
  · rw [if_neg hemp] at h
    have hmax : pyMax (fun f => parseNat (get_epoch_number_from_path cp f))
        (checkpointCandidates cp files) = some r := by
      exact Except.ok.inj h
    obtain ⟨hmem, hle⟩ := pyMax_spec _ _ _ hmax
    exact ⟨hdigit, hmem, hle⟩

/-- Witness for C2 at the spec's example: among `ckpt.1`, `ckpt.5`, `ckpt.10`
and `ckpt.bak` the function returns `ckpt.10` and the theorem's conclusion
holds there (in particular `ckpt.bak` is not a candidate since `bak` is not a
digit string). -/
theorem find_latest_checkpoint_selects_numeric_max_witness :
    find_latest_checkpoint "ckpt".toList
        ["ckpt.1".toList, "ckpt.5".toList, "ckpt.10".toList, "ckpt.bak".toList] true
      = Except.ok (some "ckpt.10".toList) ∧
    ((∀ f ∈ checkpointCandidates "ckpt".toList
        ["ckpt.1".toList, "ckpt.5".toList, "ckpt.10".toList, "ckpt.bak".toList],
        pyIsDigit (get_epoch_number_from_path "ckpt".toList f) = true) ∧
     "ckpt.10".toList ∈ checkpointCandidates "ckpt".toList
        ["ckpt.1".toList, "ckpt.5".toList, "ckpt.10".toList, "ckpt.bak".toList] ∧
     ∀ f ∈ checkpointCandidates "ckpt".toList
        ["ckpt.1".toList, "ckpt.5".toList, "ckpt.10".toList, "ckpt.bak".toList],
       parseNat (get_epoch_number_from_path "ckpt".toList f) ≤
         parseNat (get_epoch_number_from_path "ckpt".toList "ckpt.10".toList)) :=
  ⟨by rfl, find_latest_checkpoint_selects_numeric_max _ _ true _ (by rfl)⟩

/-- C6: when no candidate with a numeric suffix exists,
`find_latest_checkpoint` raises (`Except.error`) unless `fail_safe` is set, in
which case it returns `none` (distinct from an error). -/
theorem find_latest_checkpoint_empty_behavior
    (cp : List Char) (files : List (List Char))
    (h : checkpointCandidates cp files = []) :
    find_latest_checkpoint cp files false = Except.error "Checkpoint path invalid" ∧
    find_latest_checkpoint cp files true = Except.ok none := by
  constructor <;> unfold find_latest_checkpoint <;> rw [h] <;> rfl

/-- Witness for C6: a glob that only matched `ckpt.bak` yields no numeric
candidate, so the non-fail-safe mode raises and the fail-safe mode returns
`none`. -/
theorem find_latest_checkpoint_empty_behavior_witness :
    checkpointCandidates "ckpt".toList ["ckpt.bak".toList] = [] ∧
    (find_latest_checkpoint "ckpt".toList ["ckpt.bak".toList] false
        = Except.error "Checkpoint path invalid" ∧
     find_latest_checkpoint "ckpt".toList ["ckpt.bak".toList] true = Except.ok none) :=
  ⟨by rfl, find_latest_checkpoint_empty_behavior _ _ (by rfl)⟩

/-! ## Image model -/

/-- An RGB pixel: the three colour channels. -/
abbrev RGB : Type := ℕ × ℕ × ℕ

/-- Images are row-major grids of RGB pixels (numpy `(h, w, 3)` arrays). -/
abbrev Img : Type := List (List RGB)

/-! ## `get_colored_segmentation_image` -/

/-- One pixel of `get_colored_segmentation_image`.  The source starts from a
zero image and, for each class `c` in `range(n_classes)`, adds
`((seg_arr == c) * colors[c][k]).astype("uint8")` into channel `k`; the
`uint8` cast reduces the scalar mod 2⁸. -/
def coloredPixel (n_classes : ℕ) (colors : List RGB) (v : ℕ) : RGB :=
  (List.range n_classes).foldl
    (fun acc c =>
      (acc.1 + (if v = c then (colors.getD c (0, 0, 0)).1 % 256 else 0),
       acc.2.1 + (if v = c then (colors.getD c (0, 0, 0)).2.1 % 256 else 0),
       acc.2.2 + (if v = c then (colors.getD c (0, 0, 0)).2.2 % 256 else 0)))
    (0, 0, 0)

/-- `get_colored_segmentation_image(seg_arr, n_classes, colors)`: the
per-class accumulation acts independently on every pixel, so the image is the
pixel map of `coloredPixel`. -/
def get_colored_segmentation_image (seg_arr : List (List ℕ)) (n_classes : ℕ)
    (colors : List RGB) : Img :=
  seg_arr.map (fun row => row.map (coloredPixel n_classes colors))

lemma foldl_add3 (f g h3 : ℕ → ℕ) (l : List ℕ) : ∀ a b d : ℕ,
    l.foldl (fun acc c => (acc.1 + f c, acc.2.1 + g c, acc.2.2 + h3 c)) (a, b, d)
      = (a + (l.map f).sum, b + (l.map g).sum, d + (l.map h3).sum) := by
  induction l with
  | nil => intro a b d; simp
  | cons x xs ih =>
    intro a b d
    simp only [List.foldl_cons, List.map_cons, List.sum_cons]
    rw [ih]
    simp only [Prod.mk.injEq]
    omega

lemma sum_map_range_ite (x : ℕ → ℕ) (v n : ℕ) :
    (((List.range n).map (fun c => if v = c then x c else 0)).sum)
      = if v < n then x v else 0 := by
  induction n with
  | zero => simp
  | succ m ih =>
    rw [List.range_succ, List.map_append, List.sum_append]
    simp only [List.map_cons, List.map_nil, List.sum_cons, List.sum_nil]
    rw [ih]
    by_cases h1 : v = m
    · subst h1
      simp [Nat.lt_irrefl, Nat.lt_succ_self]
    · by_cases h2 : v < m
      · simp [h1, h2, Nat.lt_succ_of_lt h2]
      · simp [h1, h2, show ¬v < m + 1 by omega]

lemma coloredPixel_eq (n_classes : ℕ) (colors : List RGB) (v : ℕ) :
    coloredPixel n_classes colors v =
      (if v < n_classes then (colors.getD v (0, 0, 0)).1 % 256 else 0,
       if v < n_classes then (colors.getD v (0, 0, 0)).2.1 % 256 else 0,
       if v < n_classes then (colors.getD v (0, 0, 0)).2.2 % 256 else 0) := by
  unfold coloredPixel
  rw [foldl_add3]
  simp only [Nat.zero_add, sum_map_range_ite]

/-- C3: every pixel whose class index is `c < n_classes` receives exactly the
palette colour for `c` (the palette has at least `n_classes` entries and its
channel values fit in a byte, so the `uint8` cast is the identity). -/
theorem get_colored_segmentation_image_palette
    (seg_arr : List (List ℕ)) (n_classes : ℕ) (colors : List RGB)
    (i j c : ℕ) (hc : c < n_classes) (hlen : n_classes ≤ colors.length)
    (hbound : ∀ col ∈ colors, col.1 < 256 ∧ col.2.1 < 256 ∧ col.2.2 < 256)
    (hi : i < seg_arr.length) (hj : j < (seg_arr.getD i []).length)
    (hval : (seg_arr.getD i []).getD j 0 = c) :
    ((get_colored_segmentation_image seg_arr n_classes colors).getD i []).getD j (0, 0, 0)
      = colors.getD c (0, 0, 0) := by
  have hcl : c < colors.length := lt_of_lt_of_le hc hlen
  have hmem : colors.getD c (0, 0, 0) ∈ colors := by
    rw [List.getD_eq_getElem colors (0, 0, 0) hcl]
    exact List.getElem_mem _
  obtain ⟨hr, hg, hb⟩ := hbound _ hmem
  have hrowlen : i < (seg_arr.map (fun row => row.map (coloredPixel n_classes colors))).length := by
    simpa using hi
  unfold get_colored_segmentation_image
  rw [List.getD_eq_getElem _ [] hrowlen, List.getElem_map]
  have hj' : j < ((seg_arr.getD i []).map (coloredPixel n_classes colors)).length := by
    simpa using hj
  rw [List.getD_eq_getElem seg_arr [] hi] at hj hval
  rw [List.getD_eq_getElem _ (0, 0, 0) (by simpa using hj), List.getElem_map]
  rw [List.getD_eq_getElem _ 0 hj] at hval
  rw [hval, coloredPixel_eq, if_pos hc, if_pos hc, if_pos hc,
    Nat.mod_eq_of_lt hr, Nat.mod_eq_of_lt hg, Nat.mod_eq_of_lt hb]

/-- Witness for C3 at the spec's example: the 2×2 map `[[0,1],[1,0]]` with
palette `[(10,20,30),(40,50,60)]`; position `(0,0)` carries class 0 and
receives `(10,20,30)`. -/
theorem get_colored_segmentation_image_palette_witness :
    (0 < 2 ∧ (2:ℕ) ≤ 2 ∧ ([[0,1],[1,0]] : List (List ℕ)).length > 0) ∧
    ((get_colored_segmentation_image [[0, 1], [1, 0]] 2
        [(10, 20, 30), (40, 50, 60)]).getD 0 []).getD 0 (0, 0, 0) = (10, 20, 30) :=
  ⟨by decide,
   get_colored_segmentation_image_palette [[0, 1], [1, 0]] 2 [(10, 20, 30), (40, 50, 60)]
     0 0 0 (by decide) (by decide) (by decide) (by decide) (by decide) (by decide)⟩

/-! ## `overlay_seg_image` -/

/-- `cv2.resize(src, (w, h), interpolation=cv2.INTER_NEAREST)`: output pixel
`(i, j)` reads source pixel `(⌊i·srcH/h⌋, ⌊j·srcW/w⌋)` (OpenCV's nearest
neighbour takes the floor of the destination coordinate times the scale
factor). -/
def resizeNearest (src : Img) (h w : ℕ) : Img :=
  (List.range h).map (fun i =>
    (List.range w).map (fun j =>
      (src.getD (i * src.length / h) []).getD (j * (src.getD 0 []).length / w) (0, 0, 0)))

/-- One channel of `(inp_img / 2 + seg_img / 2).astype("uint8")`: the two
halves are exact in float64, the `uint8` cast truncates toward zero and
reduces mod 2⁸. -/
def blendChannel (a b : ℕ) : ℕ :=
  ((a : ℚ) / 2 + (b : ℚ) / 2).floor.toNat % 256

def blendPixel (p q : RGB) : RGB :=
  (blendChannel p.1 q.1, blendChannel p.2.1 q.2.1, blendChannel p.2.2 q.2.2)

/-- `overlay_seg_image(inp_img, seg_img)`: resize the colorized map to the
input's spatial dimensions with nearest-neighbour interpolation, then blend
the two images channel-wise. -/
def overlay_seg_image (inp_img seg_img : Img) : Img :=
  let seg := resizeNearest seg_img inp_img.length ((inp_img.getD 0 []).length)
  (inp_img.zip seg).map (fun rows =>
    (rows.1.zip rows.2).map (fun pq => blendPixel pq.1 pq.2))

lemma blendChannel_eq (a b : ℕ) (ha : a < 256) (hb : b < 256) :
    blendChannel a b = (a + b) / 2 := by
  unfold blendChannel
  have h1 : (a : ℚ) / 2 + (b : ℚ) / 2 = ((a + b : ℕ) : ℚ) / ((2 : ℕ) : ℚ) := by
    push_cast
    ring
  rw [h1]
  have h2 : (((a + b : ℕ) : ℚ) / ((2 : ℕ) : ℚ)).floor = ⌊((a + b : ℕ) : ℚ) / ((2 : ℕ) : ℚ)⌋ := by
    rw [Rat.floor_def', Rat.floor_def]
  rw [h2, Rat.floor_natCast_div_natCast, ← Int.natCast_div, Int.toNat_natCast]
  exact Nat.mod_eq_of_lt (by omega)

/-- A pixel read with out-of-range defaults from an image whose channels all
fit in a byte also fits in a byte. -/
lemma getD_pixel_bound (img : Img)
    (hb : ∀ row ∈ img, ∀ p ∈ row, p.1 < 256 ∧ p.2.1 < 256 ∧ p.2.2 < 256) (i j : ℕ) :
    ((img.getD i []).getD j (0, 0, 0)).1 < 256 ∧
    ((img.getD i []).getD j (0, 0, 0)).2.1 < 256 ∧
    ((img.getD i []).getD j (0, 0, 0)).2.2 < 256 := by
  by_cases hi : i < img.length
  · have hrow : img.getD i [] ∈ img := by
      rw [List.getD_eq_getElem _ _ hi]
      exact List.getElem_mem _
    by_cases hj : j < (img.getD i []).length
    · have hp : (img.getD i []).getD j (0, 0, 0) ∈ img.getD i [] := by
        rw [List.getD_eq_getElem _ _ hj]
        exact List.getElem_mem _
      exact hb _ hrow _ hp
    · rw [List.getD_eq_default _ _ (le_of_not_lt hj)]
      decide
  · rw [List.getD_eq_default _ _ (le_of_not_lt hi)]
    simp [List.getD]

lemma resizeNearest_getD (src : Img) (h w i j : ℕ) (hi : i < h) (hj : j < w) :
    ((resizeNearest src h w).getD i []).getD j (0, 0, 0)
      = (src.getD (i * src.length / h) []).getD (j * (src.getD 0 []).length / w)
          (0, 0, 0) := by
  unfold resizeNearest
  rw [List.getD_eq_getElem _ [] (by simpa using hi), List.getElem_map,
    List.getElem_range, List.getD_eq_getElem _ (0, 0, 0) (by simpa using hj),
    List.getElem_map, List.getElem_range]

lemma zip_blend_row_getD (a b : List RGB) : ∀ j : ℕ, j < a.length → j < b.length →
    ((a.zip b).map (fun pq => blendPixel pq.1 pq.2)).getD j (0, 0, 0)
      = blendPixel (a.getD j (0, 0, 0)) (b.getD j (0, 0, 0)) := by
  induction a generalizing b with
  | nil => intro j hj _; simp at hj
  | cons x xs ih =>
    intro j hj hjb
    cases b with
    | nil => simp at hjb
    | cons y ys =>
      cases j with
      | zero => simp
      | succ k =>
        simp only [List.zip_cons_cons, List.map_cons, List.getD_cons_succ]
        exact ih ys k (by simpa using hj) (by simpa using hjb)

lemma zip_blend_getD (A B : Img) : ∀ i : ℕ, i < A.length → i < B.length → ∀ j : ℕ,
    (((A.zip B).map (fun rows =>
        (rows.1.zip rows.2).map (fun pq => blendPixel pq.1 pq.2))).getD i []).getD j (0, 0, 0)
      = (((A.getD i []).zip (B.getD i [])).map (fun pq => blendPixel pq.1 pq.2)).getD
          j (0, 0, 0) := by
  induction A generalizing B with
  | nil => intro i hi _ j; simp at hi
  | cons x xs ih =>
    intro i hi hib j
    cases B with
    | nil => simp at hib
    | cons y ys =>
      cases i with
      | zero => simp
      | succ k =>
        simp only [List.zip_cons_cons, List.map_cons, List.getD_cons_succ]
        exact ih ys k (by simpa using hi) (by simpa using hib) j

lemma resizeNearest_length (src : Img) (h w : ℕ) : (resizeNearest src h w).length = h := by
  unfold resizeNearest
  simp

lemma resizeNearest_row_length (src : Img) (h w i : ℕ) (hi : i < h) :
    ((resizeNearest src h w).getD i []).length = w := by
  unfold resizeNearest
  rw [List.getD_eq_getElem _ [] (by simpa using hi), List.getElem_map, List.getElem_range,
    List.length_map, List.length_range]

/-- C4: `overlay_seg_image` first resizes the segmentation image to the input
image's height and width with nearest-neighbour interpolation and then blends
pixel-wise; for byte-valued images each output channel is the truncated
integer average of the input channel and the resized-segmentation channel. -/
theorem overlay_seg_image_blend (inp_img seg_img : Img) (i j : ℕ)
    (hi : i < inp_img.length) (hj : j < (inp_img.getD i []).length)
    (hj0 : j < (inp_img.getD 0 []).length)
    (hbi : ∀ row ∈ inp_img, ∀ p ∈ row, p.1 < 256 ∧ p.2.1 < 256 ∧ p.2.2 < 256)
    (hbs : ∀ row ∈ seg_img, ∀ p ∈ row, p.1 < 256 ∧ p.2.1 < 256 ∧ p.2.2 < 256) :
    ((overlay_seg_image inp_img seg_img).getD i []).getD j (0, 0, 0)
      = (let a := (inp_img.getD i []).getD j (0, 0, 0)
         let b := ((resizeNearest seg_img inp_img.length
             ((inp_img.getD 0 []).length)).getD i []).getD j (0, 0, 0)
         ((a.1 + b.1) / 2, (a.2.1 + b.2.1) / 2, (a.2.2 + b.2.2) / 2)) := by
  set R := resizeNearest seg_img inp_img.length ((inp_img.getD 0 []).length) with hR
  have hRlen : R.length = inp_img.length := resizeNearest_length _ _ _
  have hRrowlen : (R.getD i []).length = (inp_img.getD 0 []).length :=
    resizeNearest_row_length _ _ _ _ hi
  have step1 : ((overlay_seg_image inp_img seg_img).getD i []).getD j (0, 0, 0)
      = (((inp_img.getD i []).zip (R.getD i [])).map (fun pq => blendPixel pq.1 pq.2)).getD
          j (0, 0, 0) := by
    unfold overlay_seg_image
    rw [← hR]
    exact zip_blend_getD inp_img R i hi (by omega) j
  have step2 : (((inp_img.getD i []).zip (R.getD i [])).map
        (fun pq => blendPixel pq.1 pq.2)).getD j (0, 0, 0)
      = blendPixel ((inp_img.getD i []).getD j (0, 0, 0)) ((R.getD i []).getD j (0, 0, 0)) :=
    zip_blend_row_getD _ _ j hj (by omega)
  have ha := hbi (inp_img.getD i [])
    (by rw [List.getD_eq_getElem inp_img [] hi]; exact List.getElem_mem _)
    ((inp_img.getD i []).getD j (0, 0, 0))
    (by rw [List.getD_eq_getElem _ (0, 0, 0) hj]; exact List.getElem_mem _)
  have hb' : ((R.getD i []).getD j (0, 0, 0)).1 < 256 ∧
      ((R.getD i []).getD j (0, 0, 0)).2.1 < 256 ∧
      ((R.getD i []).getD j (0, 0, 0)).2.2 < 256 := by
    rw [hR, resizeNearest_getD seg_img inp_img.length ((inp_img.getD 0 []).length) i j hi hj0]
    exact getD_pixel_bound seg_img hbs _ _
  rw [step1, step2]
  obtain ⟨ha1, ha2, ha3⟩ := ha
  obtain ⟨hb1, hb2, hb3⟩ := hb'
  simp only [blendPixel]
  rw [blendChannel_eq _ _ ha1 hb1, blendChannel_eq _ _ ha2 hb2, blendChannel_eq _ _ ha3 hb3]

/-- Witness for C4 at the spec's example: a 1×1 source image `(100,100,100)`
overlaid with the 1×1 colorized map `(0,0,0)` blends to exactly `(50,50,50)`. -/
theorem overlay_seg_image_blend_witness :
    ((0:ℕ) < 1 ∧
      (∀ row ∈ ([[(100, 100, 100)]] : Img), ∀ p ∈ row,
        p.1 < 256 ∧ p.2.1 < 256 ∧ p.2.2 < 256) ∧
      (∀ row ∈ ([[(0, 0, 0)]] : Img), ∀ p ∈ row,
        p.1 < 256 ∧ p.2.1 < 256 ∧ p.2.2 < 256)) ∧
    ((overlay_seg_image [[(100, 100, 100)]] [[(0, 0, 0)]]).getD 0 []).getD 0 (0, 0, 0)
      = (50, 50, 50) :=
  ⟨⟨by decide, by decide, by decide⟩,
   (overlay_seg_image_blend [[(100, 100, 100)]] [[(0, 0, 0)]] 0 0
     (by decide) (by decide) (by decide) (by decide) (by decide)).trans (by decide)⟩

/-! ## `visualize_segmentation` and its collaborators -/

/-- `np.max` over a 2-D array (numpy raises on an empty array; the embedding
returns 0 there, a case no claim touches). -/
def npMax (seg_arr : List (List ℕ)) : ℕ :=
  (seg_arr.map (fun row => row.foldl max 0)).foldl max 0

/-- External image operations used by `predict.py` but implemented outside the
repository (OpenCV and the data loader); the embedding is parametric in them. -/
structure ImageOps where
  /-- `cv2.putText(img, text, (0, y), FONT_HERSHEY_COMPLEX, 0.5, (0,0,0), 1)`. -/
  putText : Img → String → ℕ → Img
  /-- `cv2.rectangle(img, (x1, y1), (x2, y2), color, -1)` (filled). -/
  rectangleFill : Img → ℕ × ℕ → ℕ × ℕ → RGB → Img
  /-- `cv2.resize(img, (w, h))` with the default (bilinear) interpolation. -/
  resizeDefault : Img → ℕ → ℕ → Img
  /-- `get_image_array(inp, input_width, input_height)` from the data loader:
  resize/normalise the input image into the model's flat input vector. -/
  get_image_array : Img → ℕ → ℕ → List ℚ

/-- `get_legends(class_names, colors)`: a white strip of height
`25·len(class_names) + 25` and width 125; for each class, the name is drawn as
text and a colour swatch rectangle is filled beside it. -/
def get_legends (ops : ImageOps) (class_names : List String) (colors : List RGB) : Img :=
  let n_classes := class_names.length
  let legend : Img := List.replicate (class_names.length * 25 + 25)
    (List.replicate 125 (255, 255, 255))
  ((class_names.take n_classes).zip (colors.take n_classes)).enum.foldl
    (fun img ic =>
      ops.rectangleFill (ops.putText img ic.2.1 (ic.1 * 25 + 17))
        (110, ic.1 * 25) (135, ic.1 * 25 + 25) ic.2.2)
    legend

/-- `concat_legends(seg_img, legend_img)`: a canvas of the combined size
filled with the scalar `legend_img[0, 0, 0]` (the first channel of the
legend's top-left pixel, broadcast to all three channels by numpy), the
legend pasted top-left and the segmentation image pasted to its right. -/
def concat_legends (seg_img legend_img : Img) : Img :=
  let new_h := max seg_img.length legend_img.length
  let new_w := (seg_img.getD 0 []).length + (legend_img.getD 0 []).length
  let bg := ((legend_img.getD 0 []).getD 0 (0, 0, 0)).1
  (List.range new_h).map (fun i =>
    (List.range new_w).map (fun j =>
      if i < legend_img.length ∧ j < (legend_img.getD 0 []).length then
        (legend_img.getD i []).getD j (0, 0, 0)
      else if i < seg_img.length ∧ (legend_img.getD 0 []).length ≤ j then
        (seg_img.getD i []).getD (j - (legend_img.getD 0 []).length) (0, 0, 0)
      else (bg, bg, bg)))

/-- `visualize_segmentation(...)`: default `n_classes` to `np.max(seg_arr)`,
colorize, resize to the source image's dimensions (nearest), resize to the
requested prediction size (nearest; the source image with OpenCV's default
interpolation), then overlay (asserting a source image exists) and append the
legend (asserting class names exist).  Python `assert` failures are
`Except.error`. -/
def visualize_segmentation (ops : ImageOps) (seg_arr : List (List ℕ))
    (inp_img : Option Img) (n_classes : Option ℕ) (colors : List RGB)
    (class_names : Option (List String)) (overlay_img : Bool) (show_legends : Bool)
    (prediction_width : Option ℕ) (prediction_height : Option ℕ) :
    Except String Img :=
  let n_classes := match n_classes with
    | none => npMax seg_arr
    | some n => n
  let seg_img := get_colored_segmentation_image seg_arr n_classes colors
  let seg_img := match inp_img with
    | some inp => resizeNearest seg_img inp.length ((inp.getD 0 []).length)
    | none => seg_img
  let sized : Img × Option Img := match prediction_width, prediction_height with
    | some w, some h =>
        (resizeNearest seg_img h w,
         match inp_img with
         | some inp => some (ops.resizeDefault inp w h)
         | none => none)
    | _, _ => (seg_img, inp_img)
  let seg_img := sized.1
  let inp_img := sized.2
  let step1 : Except String Img :=
    if overlay_img then
      match inp_img with
      | none => Except.error "assert inp_img is not None"
      | some inp => Except.ok (overlay_seg_image inp seg_img)
    else Except.ok seg_img
  match step1 with
  | Except.error e => Except.error e
  | Except.ok seg1 =>
    if show_legends then
      match class_names with
      | none => Except.error "assert class_names is not None"
      | some names => Except.ok (concat_legends seg1 (get_legends ops names colors))
    else Except.ok seg1

/-- C5: with `n_classes` absent, `visualize_segmentation` behaves exactly as
with `n_classes = np.max(seg_arr)`; for a map containing only classes
`{0, 2}` that maximum is 2, and the class-2 pixel is left black by the
`[0, n_classes)` colorization range even when the palette has a third
colour. -/
theorem visualize_segmentation_default_n_classes (ops : ImageOps)
    (seg_arr : List (List ℕ)) (inp_img : Option Img) (colors : List RGB)
    (class_names : Option (List String)) (ov sl : Bool) (pw ph : Option ℕ) :
    visualize_segmentation ops seg_arr inp_img none colors class_names ov sl pw ph
      = visualize_segmentation ops seg_arr inp_img (some (npMax seg_arr)) colors
          class_names ov sl pw ph ∧
    npMax [[0, 2], [2, 0]] = 2 ∧
    ((get_colored_segmentation_image [[0, 2], [2, 0]] (npMax [[0, 2], [2, 0]])
        [(10, 20, 30), (40, 50, 60), (70, 80, 90)]).getD 0 []).getD 1 (0, 0, 0)
      = (0, 0, 0) :=
  ⟨rfl, by decide, by decide⟩

/-- C8: requesting the overlay without a source image, or the legend without
class names, makes `visualize_segmentation` fail with the corresponding
assertion error instead of producing a composition. -/
theorem visualize_segmentation_precondition_failures (ops : ImageOps)
    (seg_arr : List (List ℕ)) (inp_img : Option Img) (n_classes : Option ℕ)
    (colors : List RGB) (class_names : Option (List String)) (ov sl : Bool)
    (pw ph : Option ℕ)
    (h : (ov = true ∧ inp_img = none) ∨ (sl = true ∧ class_names = none)) :
    visualize_segmentation ops seg_arr inp_img n_classes colors class_names ov sl pw ph
      = Except.error "assert inp_img is not None" ∨
    visualize_segmentation ops seg_arr inp_img n_classes colors class_names ov sl pw ph
      = Except.error "assert class_names is not None" := by
  rcases h with ⟨hov, hinp⟩ | ⟨hsl, hnames⟩
  · subst hov hinp
    left
    cases pw <;> cases ph <;> rfl
  · subst hsl hnames
    cases ov with
    | false => right; rfl
    | true =>
      cases inp_img with
      | none => left; cases pw <;> cases ph <;> rfl
      | some inp => right; cases pw <;> cases ph <;> rfl

/-- Trivial instantiation of the external image operations, used to evaluate
the embedding on concrete inputs. -/
def trivialOps : ImageOps where
  putText := fun img _ _ => img
  rectangleFill := fun img _ _ _ => img
  resizeDefault := fun img _ _ => img
  get_image_array := fun _ _ _ => []

/-- Witness for C8: overlay requested with no source image fails with the
assertion error. -/
theorem visualize_segmentation_precondition_failures_witness :
    (((true : Bool) = true ∧ (none : Option Img) = none) ∨
      ((false : Bool) = true ∧ (none : Option (List String)) = none)) ∧
    (visualize_segmentation trivialOps [[0]] none (some 1) [(1, 2, 3)] none true false
        none none = Except.error "assert inp_img is not None" ∨
     visualize_segmentation trivialOps [[0]] none (some 1) [(1, 2, 3)] none true false
        none none = Except.error "assert class_names is not None") :=
  ⟨Or.inl ⟨rfl, rfl⟩,
   visualize_segmentation_precondition_failures trivialOps [[0]] none (some 1)
     [(1, 2, 3)] none true false none none (Or.inl ⟨rfl, rfl⟩)⟩

/-! ## `predict_segmentation` -/

/-- The external model object: input/output dimensions, class count and the
opaque `predict` function on a single input (the source forms a one-element
batch and takes the first row of the result). -/
structure SegModel where
  input_width : ℕ
  input_height : ℕ
  output_width : ℕ
  output_height : ℕ
  n_classes : ℕ
  predict : List ℚ → List ℚ

/-- `np.argmax` over a vector: index of the first maximal entry (0 on the
empty vector, which numpy rejects; no claim touches it). -/
def np_argmax (l : List ℚ) : ℕ :=
  match l with
  | [] => 0
  | x :: xs =>
    (xs.foldl (fun (b : ℕ × ℚ × ℕ) y =>
      if y > b.2.1 then (b.2.2, y, b.2.2 + 1) else (b.1, b.2.1, b.2.2 + 1)) (0, x, 1)).1

/-- `pr.reshape((output_height, output_width, n_classes)).argmax(axis=2)`:
row-major reshape of the flat score vector, then per-pixel argmax over the
class axis. -/
def reshape_argmax (flat : List ℚ) (h w c : ℕ) : List (List ℕ) :=
  (List.range h).map (fun i =>
    (List.range w).map (fun j => np_argmax ((flat.drop ((i * w + j) * c)).take c)))

/-- `predict_segmentation(...)`.  Checkpoint loading, file decoding, the
input-rank assertion and the `cv2.imwrite` side effects are external I/O and
not modelled; the model object is passed directly and the input is an
in-memory image.  The four `all_visualisations` variants (or the single
flag-selected variant) are computed exactly as in the source — so any
assertion failure inside them propagates — and the raw arg-max class map is
returned. -/
def predict_segmentation (ops : ImageOps) (model : SegModel) (inp : Img)
    (overlay_img : Bool) (class_names : Option (List String)) (show_legends : Bool)
    (colors : List RGB) (prediction_width prediction_height : Option ℕ)
    (all_visualisations : Bool) : Except String (List (List ℕ)) :=
  let x := ops.get_image_array inp model.input_width model.input_height
  let pr := reshape_argmax (model.predict x) model.output_height model.output_width
    model.n_classes
  if all_visualisations then
    match visualize_segmentation ops pr (some inp) (some model.n_classes) colors
        class_names true true prediction_width prediction_height with
    | Except.error e => Except.error e
    | Except.ok _ =>
      match visualize_segmentation ops pr (some inp) (some model.n_classes) colors
          class_names true false prediction_width prediction_height with
      | Except.error e => Except.error e
      | Except.ok _ =>
        match visualize_segmentation ops pr (some inp) (some model.n_classes) colors
            class_names false true prediction_width prediction_height with
        | Except.error e => Except.error e
        | Except.ok _ =>
          match visualize_segmentation ops pr (some inp) (some model.n_classes) colors
              class_names false false prediction_width prediction_height with
          | Except.error e => Except.error e
          | Except.ok _ => Except.ok pr
  else
    match visualize_segmentation ops pr (some inp) (some model.n_classes) colors
        class_names overlay_img show_legends prediction_width prediction_height with
    | Except.error e => Except.error e
    | Except.ok _ => Except.ok pr

/-- With a source image present, `visualize_segmentation` can only fail on the
missing-class-names assertion; when that is ruled out it succeeds. -/
lemma visualize_segmentation_ok (ops : ImageOps) (seg_arr : List (List ℕ)) (inp : Img)
    (n_classes : Option ℕ) (colors : List RGB) (class_names : Option (List String))
    (ov sl : Bool) (pw ph : Option ℕ)
    (hnames : sl = true → class_names ≠ none) :
    ∃ v, visualize_segmentation ops seg_arr (some inp) n_classes colors class_names
      ov sl pw ph = Except.ok v := by
  cases sl with
  | true =>
    cases class_names with
    | none => exact absurd rfl (hnames rfl)
    | some l => cases ov <;> cases pw <;> cases ph <;> exact ⟨_, rfl⟩
  | false => cases ov <;> cases pw <;> cases ph <;> exact ⟨_, rfl⟩

/-- C7: whenever its preconditions hold (class names are present if any
legend-bearing variant is requested), `predict_segmentation` returns the
arg-max class map of the reshaped model output — the same value for every
combination of visualization flags. -/
theorem predict_segmentation_returns_argmax (ops : ImageOps) (model : SegModel)
    (inp : Img) (ov : Bool) (class_names : Option (List String)) (sl : Bool)
    (colors : List RGB) (pw ph : Option ℕ) (av : Bool)
    (hnames : sl = true ∨ av = true → class_names ≠ none) :
    predict_segmentation ops model inp ov class_names sl colors pw ph av
      = Except.ok (reshape_argmax
          (model.predict (ops.get_image_array inp model.input_width model.input_height))
          model.output_height model.output_width model.n_classes) := by
  unfold predict_segmentation
  set pr := reshape_argmax
    (model.predict (ops.get_image_array inp model.input_width model.input_height))
    model.output_height model.output_width model.n_classes with hpr
  cases av with
  | true =>
    have hn : class_names ≠ none := hnames (Or.inr rfl)
    obtain ⟨v1, h1⟩ := visualize_segmentation_ok ops pr inp (some model.n_classes) colors
      class_names true true pw ph (fun _ => hn)
    obtain ⟨v2, h2⟩ := visualize_segmentation_ok ops pr inp (some model.n_classes) colors
      class_names true false pw ph (fun _ => hn)
    obtain ⟨v3, h3⟩ := visualize_segmentation_ok ops pr inp (some model.n_classes) colors
      class_names false true pw ph (fun _ => hn)
    obtain ⟨v4, h4⟩ := visualize_segmentation_ok ops pr inp (some model.n_classes) colors
      class_names false false pw ph (fun _ => hn)
    simp only [if_true, h1, h2, h3, h4]
  | false =>
    obtain ⟨v, hv⟩ := visualize_segmentation_ok ops pr inp (some model.n_classes) colors
      class_names ov sl pw ph (fun hh => hnames (Or.inl hh))
    simp only [if_false, Bool.false_eq_true, hv]

/-- Witness for C7: a 1×1, 2-class model whose flat output is `[1, 0]`;
prediction with the legend variant and class names present returns the
arg-max map. -/
theorem predict_segmentation_returns_argmax_witness :
    (((true : Bool) = true ∨ (false : Bool) = true) →
      (some ["a", "b"] : Option (List String)) ≠ none) ∧
    predict_segmentation trivialOps (SegModel.mk 1 1 1 1 2 (fun _ => [1, 0]))
        [[(0, 0, 0)]] false (some ["a", "b"]) true [(1, 2, 3), (4, 5, 6)] none none false
      = Except.ok (reshape_argmax [1, 0] 1 1 2) :=
  ⟨fun _ h => Option.noConfusion h,
   predict_segmentation_returns_argmax trivialOps
     (SegModel.mk 1 1 1 1 2 (fun _ => [1, 0])) [[(0, 0, 0)]] false (some ["a", "b"])
     true [(1, 2, 3), (4, 5, 6)] none none false
     (fun _ h => Option.noConfusion h)⟩

/-! ## `evaluate_segmentation` -/

/-- The pixel stream of one (image, annotation) pair: the flattened predicted
class map zipped with the flattened ground-truth arg-max map (both always
have shape `output_height × output_width`).  Producing them — the model call
inside `predict_segmentation` and `get_segmentation_array` from the data
loader — is external to the accumulation this section verifies. -/
abbrev PixelPairs : Type := List (ℕ × ℕ)

/-- `np.sum((pr == cl_i) * (gt == cl_i))` on the flattened maps. -/
def countTP (c : ℕ) (px : PixelPairs) : ℕ :=
  px.countP (fun p => p.1 == c && p.2 == c)

/-- `np.sum((pr == cl_i) * (gt != cl_i))`. -/
def countFP (c : ℕ) (px : PixelPairs) : ℕ :=
  px.countP (fun p => p.1 == c && !(p.2 == c))

/-- `np.sum((pr != cl_i) * (gt == cl_i))`. -/
def countFN (c : ℕ) (px : PixelPairs) : ℕ :=
  px.countP (fun p => !(p.1 == c) && p.2 == c)

/-- `np.sum(gt == cl_i)`. -/
def countGT (c : ℕ) (px : PixelPairs) : ℕ :=
  px.countP (fun p => p.2 == c)

/-- The four per-class accumulators (`np.zeros(model.n_classes)` each); the
float64 vectors hold these integer values exactly. -/
structure EvalCounters where
  tp : ℕ → ℕ
  fp : ℕ → ℕ
  fn : ℕ → ℕ
  n_pixels : ℕ → ℕ

def initCounters : EvalCounters :=
  ⟨fun _ => 0, fun _ => 0, fun _ => 0, fun _ => 0⟩

/-- One iteration of the accumulation loop: `tp[cl_i] += ...`, `fp[cl_i] += ...`,
`fn[cl_i] += ...`, `n_pixels[cl_i] += ...` for every class index. -/
def stepCounters (acc : EvalCounters) (px : PixelPairs) : EvalCounters :=
  ⟨fun c => acc.tp c + countTP c px,
   fun c => acc.fp c + countFP c px,
   fun c => acc.fn c + countFN c px,
   fun c => acc.n_pixels c + countGT c px⟩

/-- The whole accumulation loop over the (image, annotation) pair stream. -/
def accumulateCounters (data : List PixelPairs) : EvalCounters :=
  data.foldl stepCounters initCounters

/-- The `1e-12` division guard. -/
def epsilon : ℚ := 1 / 10 ^ 12

structure EvalResult where
  frequency_weighted_IU : ℚ
  mean_IU : ℚ
  class_wise_IU : List ℚ

/-- `evaluate_segmentation` after the loop:
`cl_wise_score = tp / (tp + fp + fn + 1e-12)`,
`frequency_weighted_IU = Σ cl_wise_score · (n_pixels / Σ n_pixels)`,
`mean_IU = np.mean(cl_wise_score)`.
The divisions here are exact rational arithmetic; properties that are
sensitive to float64 rounding of the scores are stated against the rounding
model `class_wise_IU_f64` below. -/
def evaluate_segmentation (n_classes : ℕ) (data : List PixelPairs) : EvalResult :=
  let A := accumulateCounters data
  let cl_wise_score := (List.range n_classes).map (fun c =>
    (A.tp c : ℚ) / ((A.tp c : ℚ) + (A.fp c : ℚ) + (A.fn c : ℚ) + epsilon))
  let n_pixels_norm := (List.range n_classes).map (fun c =>
    (A.n_pixels c : ℚ) / ((List.range n_classes).map (fun d => (A.n_pixels d : ℚ))).sum)
  ⟨(cl_wise_score.zipWith (· * ·) n_pixels_norm).sum,
   cl_wise_score.sum / (cl_wise_score.length : ℚ),
   cl_wise_score⟩

lemma foldl_stepCounters (data : List PixelPairs) : ∀ (A : EvalCounters) (c : ℕ),
    ((data.foldl stepCounters A).tp c = A.tp c + (data.map (countTP c)).sum ∧
     (data.foldl stepCounters A).fp c = A.fp c + (data.map (countFP c)).sum) ∧
    ((data.foldl stepCounters A).fn c = A.fn c + (data.map (countFN c)).sum ∧
     (data.foldl stepCounters A).n_pixels c = A.n_pixels c + (data.map (countGT c)).sum) := by
  induction data with
  | nil => intro A c; simp
  | cons px rest ih =>
    intro A c
    simp only [List.foldl_cons, List.map_cons, List.sum_cons]
    obtain ⟨⟨h1, h2⟩, h3, h4⟩ := ih (stepCounters A px) c
    rw [h1, h2, h3, h4]
    refine ⟨⟨?_, ?_⟩, ?_, ?_⟩ <;> simp only [stepCounters] <;> omega

lemma accumulate_tp (data : List PixelPairs) (c : ℕ) :
    (accumulateCounters data).tp c = (data.map (countTP c)).sum := by
  have h := ((foldl_stepCounters data initCounters c).1).1
  simpa [accumulateCounters, initCounters] using h

lemma accumulate_fp (data : List PixelPairs) (c : ℕ) :
    (accumulateCounters data).fp c = (data.map (countFP c)).sum := by
  have h := ((foldl_stepCounters data initCounters c).1).2
  simpa [accumulateCounters, initCounters] using h

lemma accumulate_fn (data : List PixelPairs) (c : ℕ) :
    (accumulateCounters data).fn c = (data.map (countFN c)).sum := by
  have h := ((foldl_stepCounters data initCounters c).2).1
  simpa [accumulateCounters, initCounters] using h

lemma accumulate_n_pixels (data : List PixelPairs) (c : ℕ) :
    (accumulateCounters data).n_pixels c = (data.map (countGT c)).sum := by
  have h := ((foldl_stepCounters data initCounters c).2).2
  simpa [accumulateCounters, initCounters] using h

lemma zipWith_mul_map_same (f g : ℕ → ℚ) (l : List ℕ) :
    (l.map f).zipWith (· * ·) (l.map g) = l.map (fun c => f c * g c) := by
  induction l with
  | nil => rfl
  | cons x xs ih => simp [ih]

/-- A pixel stream realising the spec's example counters `tp = [3, 0]`,
`fp = [1, 2]`, `fn = [0, 1]`: three pixels predicted 0 with truth 0, one
predicted 0 with truth 1, and two predicted 1 with truth 2 (a class outside
the two scored ones, as required to keep `fn[0] = 0`). -/
def exampleData : List PixelPairs :=
  [[(0, 0), (0, 0), (0, 0), (0, 1), (1, 2), (1, 2)]]

/-- C1: after any run, the per-class IoU vector is
`tp / (tp + fp + fn + 1e-12)` over the accumulated counters, `mean_IU` is the
unweighted arithmetic mean of the per-class IoU, and
`frequency_weighted_IU = Σ IoU_c · (n_pixels_c / Σ n_pixels)`; at the spec's
example counters `tp = [3,0]`, `fp = [1,2]`, `fn = [0,1]` the per-class IoU is
`[0.75, 0.0]` and `mean_IU` is `0.375`, up to the `1e-12` guard. -/
theorem evaluate_segmentation_iou_formulas :
    (∀ (n : ℕ) (data : List PixelPairs),
      (evaluate_segmentation n data).class_wise_IU
        = (List.range n).map (fun c =>
            ((data.map (countTP c)).sum : ℚ) /
              (((data.map (countTP c)).sum : ℚ) + ((data.map (countFP c)).sum : ℚ)
                + ((data.map (countFN c)).sum : ℚ) + epsilon)) ∧
      (evaluate_segmentation n data).mean_IU
        = ((evaluate_segmentation n data).class_wise_IU).sum / (n : ℚ) ∧
      (evaluate_segmentation n data).frequency_weighted_IU
        = ((List.range n).map (fun c =>
            (((data.map (countTP c)).sum : ℚ) /
              (((data.map (countTP c)).sum : ℚ) + ((data.map (countFP c)).sum : ℚ)
                + ((data.map (countFN c)).sum : ℚ) + epsilon)) *
            (((data.map (countGT c)).sum : ℚ) /
              ((List.range n).map (fun d => ((data.map (countGT d)).sum : ℚ))).sum))).sum) ∧
    ((accumulateCounters exampleData).tp 0 = 3 ∧ (accumulateCounters exampleData).tp 1 = 0 ∧
     (accumulateCounters exampleData).fp 0 = 1 ∧ (accumulateCounters exampleData).fp 1 = 2 ∧
     (accumulateCounters exampleData).fn 0 = 0 ∧ (accumulateCounters exampleData).fn 1 = 1) ∧
    |(evaluate_segmentation 2 exampleData).class_wise_IU.getD 0 0 - 3 / 4| < 1 / 1000000 ∧
    (evaluate_segmentation 2 exampleData).class_wise_IU.getD 1 0 = 0 ∧
    |(evaluate_segmentation 2 exampleData).mean_IU - 3 / 8| < 1 / 1000000 := by
  have hcw : ∀ (n : ℕ) (data : List PixelPairs),
      (evaluate_segmentation n data).class_wise_IU = (List.range n).map (fun c =>
        ((accumulateCounters data).tp c : ℚ) / (((accumulateCounters data).tp c : ℚ) +
          ((accumulateCounters data).fp c : ℚ) + ((accumulateCounters data).fn c : ℚ) +
          epsilon)) := fun n data => rfl
  refine ⟨fun n data => ⟨?_, ?_, ?_⟩, ?_⟩
  · rw [hcw]
    refine List.map_congr_left (fun c _ => ?_)
    rw [accumulate_tp, accumulate_fp, accumulate_fn]
  · have e2 : (evaluate_segmentation n data).mean_IU
        = ((evaluate_segmentation n data).class_wise_IU).sum /
          (((evaluate_segmentation n data).class_wise_IU).length : ℚ) := rfl
    rw [e2, show ((evaluate_segmentation n data).class_wise_IU).length = n from by
      rw [hcw, List.length_map, List.length_range]]
  · have e3 : (evaluate_segmentation n data).frequency_weighted_IU
        = (((List.range n).map (fun c =>
            ((accumulateCounters data).tp c : ℚ) / (((accumulateCounters data).tp c : ℚ) +
              ((accumulateCounters data).fp c : ℚ) + ((accumulateCounters data).fn c : ℚ) +
              epsilon))).zipWith (· * ·)
          ((List.range n).map (fun c =>
            ((accumulateCounters data).n_pixels c : ℚ) /
              ((List.range n).map
                (fun d => ((accumulateCounters data).n_pixels d : ℚ))).sum))).sum := rfl
    rw [e3, zipWith_mul_map_same]
    refine congrArg List.sum (List.map_congr_left (fun c _ => ?_))
    have htot : ((List.range n).map
          (fun d => ((accumulateCounters data).n_pixels d : ℚ))).sum
        = ((List.range n).map (fun d => ((data.map (countGT d)).sum : ℚ))).sum := by
      refine congrArg List.sum (List.map_congr_left (fun d _ => ?_))
      rw [accumulate_n_pixels]
    rw [accumulate_tp, accumulate_fp, accumulate_fn, accumulate_n_pixels, htot]
  · have h1 : (accumulateCounters exampleData).tp 0 = 3 := by decide
    have h2 : (accumulateCounters exampleData).tp 1 = 0 := by decide
    have h3 : (accumulateCounters exampleData).fp 0 = 1 := by decide
    have h4 : (accumulateCounters exampleData).fp 1 = 2 := by decide
    have h5 : (accumulateCounters exampleData).fn 0 = 0 := by decide
    have h6 : (accumulateCounters exampleData).fn 1 = 1 := by decide
    refine ⟨⟨h1, h2, h3, h4, h5, h6⟩, ?_, ?_, ?_⟩
    · have e := show (evaluate_segmentation 2 exampleData).class_wise_IU.getD 0 0
          = ((accumulateCounters exampleData).tp 0 : ℚ) /
            (((accumulateCounters exampleData).tp 0 : ℚ) +
              ((accumulateCounters exampleData).fp 0 : ℚ) +
              ((accumulateCounters exampleData).fn 0 : ℚ) + epsilon) from rfl
      rw [e, h1, h3, h5, abs_sub_lt_iff]
      constructor <;> norm_num [epsilon]
    · have e := show (evaluate_segmentation 2 exampleData).class_wise_IU.getD 1 0
          = ((accumulateCounters exampleData).tp 1 : ℚ) /
            (((accumulateCounters exampleData).tp 1 : ℚ) +
              ((accumulateCounters exampleData).fp 1 : ℚ) +
              ((accumulateCounters exampleData).fn 1 : ℚ) + epsilon) from rfl
      rw [e, h2]
      norm_num
    · have e := show (evaluate_segmentation 2 exampleData).mean_IU
          = (((accumulateCounters exampleData).tp 0 : ℚ) /
              (((accumulateCounters exampleData).tp 0 : ℚ) +
                ((accumulateCounters exampleData).fp 0 : ℚ) +
                ((accumulateCounters exampleData).fn 0 : ℚ) + epsilon) +
             (((accumulateCounters exampleData).tp 1 : ℚ) /
              (((accumulateCounters exampleData).tp 1 : ℚ) +
                ((accumulateCounters exampleData).fp 1 : ℚ) +
                ((accumulateCounters exampleData).fn 1 : ℚ) + epsilon) + 0)) /
            ((2 : ℕ) : ℚ) from rfl
      rw [e, h1, h2, h3, h4, h5, h6, abs_sub_lt_iff]
      constructor <;> norm_num [epsilon]

/-- C9: the accumulation is a pure per-class sum, so permuting the
(image, annotation) pair stream leaves the final counters and every returned
score unchanged. -/
theorem evaluate_segmentation_perm_invariant (n : ℕ) (data data' : List PixelPairs)
    (h : data.Perm data') :
    accumulateCounters data = accumulateCounters data' ∧
    evaluate_segmentation n data = evaluate_segmentation n data' := by
  have htp : (accumulateCounters data).tp = (accumulateCounters data').tp := by
    funext c
    rw [accumulate_tp, accumulate_tp]
    exact (h.map (countTP c)).sum_eq
  have hfp : (accumulateCounters data).fp = (accumulateCounters data').fp := by
    funext c
    rw [accumulate_fp, accumulate_fp]
    exact (h.map (countFP c)).sum_eq
  have hfn : (accumulateCounters data).fn = (accumulateCounters data').fn := by
    funext c
    rw [accumulate_fn, accumulate_fn]
    exact (h.map (countFN c)).sum_eq
  have hnp : (accumulateCounters data).n_pixels = (accumulateCounters data').n_pixels := by
    funext c
    rw [accumulate_n_pixels, accumulate_n_pixels]
    exact (h.map (countGT c)).sum_eq
  have hA : accumulateCounters data = accumulateCounters data' := by
    calc accumulateCounters data
        = ⟨(accumulateCounters data).tp, (accumulateCounters data).fp,
           (accumulateCounters data).fn, (accumulateCounters data).n_pixels⟩ := rfl
      _ = ⟨(accumulateCounters data').tp, (accumulateCounters data').fp,
           (accumulateCounters data').fn, (accumulateCounters data').n_pixels⟩ := by
          rw [htp, hfp, hfn, hnp]
      _ = accumulateCounters data' := rfl
  refine ⟨hA, ?_⟩
  unfold evaluate_segmentation
  rw [hA]

/-- Witness for C9: swapping a two-pair stream leaves the result unchanged. -/
theorem evaluate_segmentation_perm_invariant_witness :
    (([[(0, 0)], [(1, 0), (1, 1)]] : List PixelPairs).Perm
      ([[(1, 0), (1, 1)], [(0, 0)]] : List PixelPairs)) ∧
    (accumulateCounters [[(0, 0)], [(1, 0), (1, 1)]]
        = accumulateCounters [[(1, 0), (1, 1)], [(0, 0)]] ∧
     evaluate_segmentation 2 [[(0, 0)], [(1, 0), (1, 1)]]
        = evaluate_segmentation 2 [[(1, 0), (1, 1)], [(0, 0)]]) :=
  ⟨by decide, evaluate_segmentation_perm_invariant 2 _ _ (by decide)⟩

lemma countGT_eq_countTP_add_countFN (c : ℕ) (px : PixelPairs) :
    countGT c px = countTP c px + countFN c px := by
  unfold countGT countTP countFN
  induction px with
  | nil => simp
  | cons p ps ih =>
    simp only [List.countP_cons]
    cases hb1 : (p.1 == c) <;> cases hb2 : (p.2 == c) <;>
      simp [hb1, hb2, ih] <;> omega

lemma sum_map_add_counts (f g : PixelPairs → ℕ) (l : List PixelPairs) :
    (l.map (fun x => f x + g x)).sum = (l.map f).sum + (l.map g).sum := by
  induction l with
  | nil => simp
  | cons x xs ih =>
    simp only [List.map_cons, List.sum_cons, ih]
    omega


/-! ### float64 rounding of the IoU scores

The accumulated counters are integers and float64 holds integers below `2^53`
exactly, so the loop itself is faithfully modelled over `ℕ`.  The final
`tp / (tp + fp + fn + 1e-12)`, however, is float64 *division* after a float64
*addition* of the tiny guard, and rounding matters there: once the integer
denominator reaches `2^14` the guard lies below half an ulp and is absorbed,
so a perfectly predicted class yields exactly `1.0`.  The following model
rounds exactly where the program's arithmetic rounds. -/

/-- Round-to-nearest integer, ties to even (the IEEE-754 default). -/
def roundEven (s : ℚ) : ℤ :=
  if s - ⌊s⌋ < 1 / 2 then ⌊s⌋
  else if 1 / 2 < s - ⌊s⌋ then ⌊s⌋ + 1
  else if ⌊s⌋ % 2 = 0 then ⌊s⌋ else ⌊s⌋ + 1

/-- Round a positive rational to the nearest IEEE-754 binary64 value: scale
into the binade `[2^52, 2^53)`, round the significand to an integer, scale
back.  Zero maps to zero; overflow and subnormals do not occur in the
modelled computations, and negative inputs never arise. -/
def fl (q : ℚ) : ℚ :=
  if q = 0 then 0
  else (roundEven (q * 2 ^ (52 - Int.log 2 q)) : ℚ) * 2 ^ (Int.log 2 q - 52)

/-- The float64 value of the source literal `0.000000000001`. -/
def eps64 : ℚ := fl (1 / 10 ^ 12)

/-- The `cl_wise_score` vector as the program's float64 arithmetic computes
it: the counters and their integer sums are exact (below `2^53`), while the
`+ 1e-12` of the guard and the division round to nearest. -/
def class_wise_IU_f64 (n_classes : ℕ) (data : List PixelPairs) : List ℚ :=
  let A := accumulateCounters data
  (List.range n_classes).map (fun c =>
    fl ((A.tp c : ℚ) /
      fl ((A.tp c : ℚ) + (A.fp c : ℚ) + (A.fn c : ℚ) + eps64)))

lemma roundEven_bounds (s : ℚ) :
    s - 1 / 2 ≤ (roundEven s : ℚ) ∧ (roundEven s : ℚ) ≤ s + 1 / 2 := by
  have h0 : (⌊s⌋ : ℚ) ≤ s := Int.floor_le s
  have h1 : s < ⌊s⌋ + 1 := Int.lt_floor_add_one s
  unfold roundEven
  split_ifs with ha hb hc <;> constructor <;> push_cast <;> linarith

lemma roundEven_add_small (k : ℤ) (t : ℚ) (h0 : 0 ≤ t) (h1 : t ≤ 1 / 2)
    (hk : k % 2 = 0) : roundEven ((k : ℚ) + t) = k := by
  have hf : ⌊(k : ℚ) + t⌋ = k := by
    rw [Int.floor_eq_iff]
    constructor
    · linarith
    · push_cast
      linarith
  unfold roundEven
  rw [hf]
  have ht : (k : ℚ) + t - (k : ℤ) = t := by push_cast; ring
  rw [ht, if_pos hk]
  split_ifs with ha hb
  · rfl
  · exact absurd hb (not_lt.mpr h1)
  · rfl

lemma roundEven_intCast (k : ℤ) : roundEven (k : ℚ) = k := by
  unfold roundEven
  rw [Int.floor_intCast]
  simp

lemma fl_zero : fl 0 = 0 := by simp [fl]

lemma fl_nonneg (q : ℚ) (h : 0 ≤ q) : 0 ≤ fl q := by
  rcases eq_or_lt_of_le h with h'|hpos
  · rw [← h', fl_zero]
  · unfold fl
    rw [if_neg (ne_of_gt hpos)]
    have hs : 0 < q * 2 ^ (52 - Int.log 2 q) := by positivity
    have hb := (roundEven_bounds (q * 2 ^ (52 - Int.log 2 q))).1
    have hm : 0 ≤ roundEven (q * 2 ^ (52 - Int.log 2 q)) := by
      by_contra hneg
      push_neg at hneg
      have hle : roundEven (q * 2 ^ (52 - Int.log 2 q)) ≤ -1 := by omega
      have : (roundEven (q * 2 ^ (52 - Int.log 2 q)) : ℚ) ≤ -1 := by exact_mod_cast hle
      linarith
    have : (0:ℚ) ≤ (roundEven (q * 2 ^ (52 - Int.log 2 q)) : ℚ) := by exact_mod_cast hm
    positivity

lemma cast_two_q : ((2:ℕ):ℚ) = (2:ℚ) := by norm_num

/-- A positive value below a power of two rounds to a double no larger than
that power of two. -/
lemma fl_le_zpow (q : ℚ) (m : ℤ) (h0 : 0 < q) (h : q < (2:ℚ) ^ (m + 1)) :
    fl q ≤ (2:ℚ) ^ (m + 1) := by
  unfold fl
  rw [if_neg (ne_of_gt h0)]
  set s := q * 2 ^ (52 - Int.log 2 q) with hs_def
  have hem : Int.log 2 q ≤ m := by
    have h' : q < ((2:ℕ):ℚ) ^ (m + 1) := by rw [cast_two_q]; exact h
    have := (Int.lt_zpow_iff_log_lt (by norm_num) h0).mp h'
    omega
  have hq2 : q < (2:ℚ) ^ (Int.log 2 q + 1) := by
    have := Int.lt_zpow_succ_log_self (b := 2) (by norm_num) q
    rwa [cast_two_q] at this
  have hs : s < 2 ^ (53 : ℤ) := by
    calc s < 2 ^ (Int.log 2 q + 1) * 2 ^ (52 - Int.log 2 q) := by
          exact mul_lt_mul_of_pos_right hq2 (by positivity)
      _ = 2 ^ (53 : ℤ) := by
          rw [← zpow_add₀ (by norm_num : (2:ℚ) ≠ 0),
            show Int.log 2 q + 1 + (52 - Int.log 2 q) = (53:ℤ) from by omega]
  have hbnd := (roundEven_bounds s).2
  have h53 : (2:ℚ) ^ (53:ℤ) = ((2 ^ 53 : ℤ) : ℚ) := by norm_num
  have hm53 : roundEven s ≤ 2 ^ 53 := by
    have h1 : (roundEven s : ℚ) < ((2 ^ 53 : ℤ) : ℚ) + 1 / 2 := by
      rw [← h53]
      linarith
    have h2 : (roundEven s : ℚ) < ((2 ^ 53 + 1 : ℤ) : ℚ) := by
      push_cast at h1 ⊢
      linarith
    have h3 : roundEven s < 2 ^ 53 + 1 := by exact_mod_cast h2
    omega
  have hcast : (roundEven s : ℚ) ≤ (2:ℚ) ^ (53:ℤ) := by
    rw [h53]
    exact_mod_cast hm53
  calc (roundEven s : ℚ) * 2 ^ (Int.log 2 q - 52)
      ≤ (2:ℚ) ^ (53:ℤ) * 2 ^ (Int.log 2 q - 52) := by
        exact mul_le_mul_of_nonneg_right hcast (by positivity)
    _ = (2:ℚ) ^ (Int.log 2 q + 1) := by
        rw [← zpow_add₀ (by norm_num : (2:ℚ) ≠ 0),
          show (53:ℤ) + (Int.log 2 q - 52) = Int.log 2 q + 1 from by omega]
    _ ≤ (2:ℚ) ^ (m + 1) := by
        apply zpow_le_zpow_right₀ (by norm_num : (1:ℚ) ≤ 2)
        omega

lemma fl_one : fl 1 = 1 := by
  unfold fl
  rw [if_neg one_ne_zero, Int.log_one_right]
  have h1 : (1:ℚ) * 2 ^ ((52:ℤ) - 0) = ((2 ^ 52 : ℤ) : ℚ) := by norm_num
  rw [h1, roundEven_intCast]
  have h2 : ((2 ^ 52 : ℤ) : ℚ) = (2:ℚ) ^ (52:ℤ) := by norm_num
  rw [h2, ← zpow_add₀ (by norm_num : (2:ℚ) ≠ 0)]
  norm_num

lemma fl_le_one (q : ℚ) (h0 : 0 ≤ q) (h1 : q ≤ 1) : fl q ≤ 1 := by
  rcases eq_or_lt_of_le h0 with h'|hpos
  · rw [← h', fl_zero]
    norm_num
  · rcases eq_or_lt_of_le h1 with h''|hlt
    · rw [h'', fl_one]
    · have := fl_le_zpow q (-1) hpos (by norm_num; exact hlt)
      simpa using this

/-- Rounding never drops below a representable value under the input: a
dyadic number on the input's exponent grid that is at most the input is at
most the rounded result. -/
lemma fl_ge_of_dyadic_le (x : ℚ) (k : ℤ) (hx : 0 < x)
    (hk : (k : ℚ) * 2 ^ (Int.log 2 x - 52) ≤ x) :
    (k : ℚ) * 2 ^ (Int.log 2 x - 52) ≤ fl x := by
  unfold fl
  rw [if_neg (ne_of_gt hx)]
  set s := x * 2 ^ (52 - Int.log 2 x) with hs_def
  have hpow : (0:ℚ) < 2 ^ (52 - Int.log 2 x) := by positivity
  have hks : (k : ℚ) ≤ s := by
    have := mul_le_mul_of_nonneg_right hk (le_of_lt hpow)
    calc (k:ℚ) = (k:ℚ) * 2 ^ (Int.log 2 x - 52) * 2 ^ (52 - Int.log 2 x) := by
          rw [mul_assoc, ← zpow_add₀ (by norm_num : (2:ℚ) ≠ 0),
            show Int.log 2 x - 52 + (52 - Int.log 2 x) = 0 from by omega]
          norm_num
      _ ≤ x * 2 ^ (52 - Int.log 2 x) := this
  have hb := (roundEven_bounds s).1
  have hklt : (k : ℚ) - 1 < (roundEven s : ℚ) := by linarith
  have hkm : k ≤ roundEven s := by
    have : ((k - 1 : ℤ) : ℚ) < (roundEven s : ℚ) := by push_cast; linarith
    have h' : k - 1 < roundEven s := by exact_mod_cast this
    omega
  have hpow2 : (0:ℚ) ≤ 2 ^ (Int.log 2 x - 52) := by positivity
  exact mul_le_mul_of_nonneg_right (by exact_mod_cast hkm) hpow2

lemma eps64_nonneg : 0 ≤ eps64 := fl_nonneg _ (by norm_num)

lemma two_zpow_neg_one : (2:ℚ) ^ (-1 : ℤ) = 1 / 2 := by
  rw [zpow_neg, show ((1:ℤ)) = ((1:ℕ):ℤ) from by norm_num, zpow_natCast]
  norm_num

lemma eps64_le_half : eps64 ≤ (2:ℚ) ^ (-1 : ℤ) := by
  have h : (1:ℚ) / 10 ^ 12 < (2:ℚ) ^ ((-2:ℤ) + 1) := by
    rw [show ((-2:ℤ) + 1) = (-1:ℤ) from by omega, two_zpow_neg_one]
    norm_num
  have := fl_le_zpow _ (-2) (by norm_num) h
  rwa [show ((-2:ℤ) + 1) = (-1:ℤ) from by omega] at this

lemma eps64_le_tiny : eps64 ≤ (2:ℚ) ^ (-39 : ℤ) := by
  have h : (1:ℚ) / 10 ^ 12 < (2:ℚ) ^ ((-40:ℤ) + 1) := by
    rw [show ((-40:ℤ) + 1) = (-39:ℤ) from by omega]
    rw [zpow_neg, show ((39:ℤ)) = ((39:ℕ):ℤ) from by norm_num, zpow_natCast]
    rw [div_lt_iff₀ (by norm_num), inv_mul_eq_div, lt_div_iff₀ (by norm_num)]
    norm_num
  have := fl_le_zpow _ (-40) (by norm_num) h
  rwa [show ((-40:ℤ) + 1) = (-39:ℤ) from by omega] at this

/-- The rounded denominator never falls below the exact integer counter sum:
the integer is representable, so rounding `S + 1e-12` stays at or above `S`. -/
lemma fl_add_eps_ge (S : ℕ) (hS1 : 1 ≤ S) (hS : S < 2 ^ 53) :
    (S : ℚ) ≤ fl ((S : ℚ) + eps64) := by
  have hS1q : (1:ℚ) ≤ (S:ℚ) := by exact_mod_cast hS1
  have hSq : (S:ℚ) ≤ (2:ℚ) ^ (53:ℤ) - 1 := by
    have h1 : S ≤ 2 ^ 53 - 1 := by omega
    have h2 : (S:ℚ) ≤ ((2 ^ 53 - 1 : ℕ) : ℚ) := by exact_mod_cast h1
    have h3 : ((2 ^ 53 - 1 : ℕ) : ℚ) = (2:ℚ) ^ (53:ℤ) - 1 := by
      rw [Nat.cast_sub (by norm_num)]
      push_cast
      norm_num
    linarith [h3 ▸ h2]
  set x := (S:ℚ) + eps64 with hx_def
  have hx0 : 0 < x := by
    have := eps64_nonneg
    rw [hx_def]
    linarith
  have hx1 : (1:ℚ) ≤ x := by
    have := eps64_nonneg
    rw [hx_def]
    linarith
  have hx53 : x < (2:ℚ) ^ (53:ℤ) := by
    have h2 : (2:ℚ) ^ (-1:ℤ) < 1 := by rw [two_zpow_neg_one]; norm_num
    have := eps64_le_half
    rw [hx_def]
    linarith
  have he0 : 0 ≤ Int.log 2 x := by
    have h1 : ((2:ℕ):ℚ) ^ (0:ℤ) ≤ x := by
      rw [cast_two_q]
      simpa using hx1
    exact (Int.zpow_le_iff_le_log (by norm_num) hx0).mp h1
  have he52 : Int.log 2 x ≤ 52 := by
    have h1 : x < ((2:ℕ):ℚ) ^ (53:ℤ) := by rwa [cast_two_q]
    have := (Int.lt_zpow_iff_log_lt (by norm_num) hx0).mp h1
    omega
  set k : ℤ := (S : ℤ) * 2 ^ ((52 - Int.log 2 x).toNat) with hk_def
  have hkq : (k : ℚ) * 2 ^ (Int.log 2 x - 52) = (S : ℚ) := by
    push_cast [hk_def]
    rw [← zpow_natCast (2:ℚ) ((52 - Int.log 2 x).toNat),
      Int.toNat_of_nonneg (by omega : (0:ℤ) ≤ 52 - Int.log 2 x)]
    rw [mul_assoc, ← zpow_add₀ (by norm_num : (2:ℚ) ≠ 0),
      show 52 - Int.log 2 x + (Int.log 2 x - 52) = 0 from by omega]
    norm_num
  have hkx : (k : ℚ) * 2 ^ (Int.log 2 x - 52) ≤ x := by
    rw [hkq, hx_def]
    have := eps64_nonneg
    linarith
  have := fl_ge_of_dyadic_le x k hx0 hkx
  rw [hkq] at this
  exact this

/-- At an integer denominator of `2^14 = 16384` the `1e-12` guard lies below
half an ulp and float64 addition absorbs it completely. -/
lemma fl_guard_absorbed : fl ((16384:ℚ) + eps64) = 16384 := by
  have h0 := eps64_nonneg
  have htiny := eps64_le_tiny
  set x := (16384:ℚ) + eps64 with hx_def
  have hx0 : 0 < x := by
    rw [hx_def]
    linarith
  have hlog : Int.log 2 x = 14 := by
    have e14 : (2:ℚ) ^ (14:ℤ) = 16384 := by norm_num
    have e15 : (2:ℚ) ^ (15:ℤ) = 32768 := by norm_num
    have etiny : (2:ℚ) ^ (-39:ℤ) ≤ 1 := by
      rw [zpow_neg, show ((39:ℤ)) = ((39:ℕ):ℤ) from by norm_num, zpow_natCast]
      rw [inv_le_one_iff₀]
      right
      norm_num
    have h1 : ((2:ℕ):ℚ) ^ (14:ℤ) ≤ x := by
      rw [cast_two_q, e14, hx_def]
      linarith
    have h2 : x < ((2:ℕ):ℚ) ^ (15:ℤ) := by
      rw [cast_two_q, e15, hx_def]
      linarith
    have ha := (Int.zpow_le_iff_le_log (by norm_num) hx0).mp h1
    have hb := (Int.lt_zpow_iff_log_lt (by norm_num) hx0).mp h2
    omega
  unfold fl
  rw [if_neg (ne_of_gt hx0), hlog,
    show (52:ℤ) - 14 = 38 from by omega, show (14:ℤ) - 52 = (-38:ℤ) from by omega]
  have hpow : (16384:ℚ) * (2:ℚ) ^ (38:ℤ) = ((2 ^ 52 : ℤ) : ℚ) := by norm_num
  have hsplit : x * (2:ℚ) ^ (38:ℤ) = ((2 ^ 52 : ℤ) : ℚ) + eps64 * (2:ℚ) ^ (38:ℤ) := by
    calc x * (2:ℚ) ^ (38:ℤ)
        = (16384:ℚ) * (2:ℚ) ^ (38:ℤ) + eps64 * (2:ℚ) ^ (38:ℤ) := by rw [hx_def]; ring
      _ = ((2 ^ 52 : ℤ) : ℚ) + eps64 * (2:ℚ) ^ (38:ℤ) := by rw [hpow]
  have hhalf : eps64 * (2:ℚ) ^ (38:ℤ) ≤ 1 / 2 := by
    calc eps64 * (2:ℚ) ^ (38:ℤ)
        ≤ (2:ℚ) ^ (-39:ℤ) * (2:ℚ) ^ (38:ℤ) := by
          exact mul_le_mul_of_nonneg_right htiny (by positivity)
      _ = (2:ℚ) ^ (-1:ℤ) := by
          rw [← zpow_add₀ (by norm_num : (2:ℚ) ≠ 0),
            show (-39:ℤ) + 38 = (-1:ℤ) from by omega]
      _ = 1 / 2 := two_zpow_neg_one
  rw [hsplit, roundEven_add_small (2 ^ 52) (eps64 * (2:ℚ) ^ (38:ℤ))
    (by positivity) hhalf (by decide)]
  have h52 : ((2 ^ 52 : ℤ) : ℚ) = (2:ℚ) ^ (52:ℤ) := by norm_num
  rw [h52, ← zpow_add₀ (by norm_num : (2:ℚ) ≠ 0),
    show (52:ℤ) + (-38:ℤ) = (14:ℤ) from by omega]
  norm_num

lemma countP_replicate (p : α → Bool) (n : ℕ) (a : α) :
    (List.replicate n a).countP p = if p a then n else 0 := by
  induction n with
  | zero => simp
  | succ m ih =>
    rw [List.replicate_succ, List.countP_cons, ih]
    cases h : p a <;> simp [h]

/-- Counterexample for C10 as stated: a single 128×128 image predicted
perfectly as one class gives `tp = 16384`, `fp = fn = 0`; float64 absorbs the
`1e-12` guard and the class-wise IoU is exactly `1.0`, outside `[0, 1)`. -/
theorem class_wise_IU_f64_reaches_one :
    class_wise_IU_f64 1 [List.replicate 16384 ((0:ℕ), (0:ℕ))] = [1] ∧
    ¬ (∀ x ∈ class_wise_IU_f64 1 [List.replicate 16384 ((0:ℕ), (0:ℕ))],
        0 ≤ x ∧ x < 1) := by
  have htp : (accumulateCounters [List.replicate 16384 ((0:ℕ), (0:ℕ))]).tp 0 = 16384 := by
    rw [accumulate_tp]
    simp only [List.map_cons, List.map_nil, List.sum_cons, List.sum_nil, countTP,
      countP_replicate]
    norm_num
  have hfp : (accumulateCounters [List.replicate 16384 ((0:ℕ), (0:ℕ))]).fp 0 = 0 := by
    rw [accumulate_fp]
    simp only [List.map_cons, List.map_nil, List.sum_cons, List.sum_nil, countFP,
      countP_replicate]
    norm_num
  have hfn : (accumulateCounters [List.replicate 16384 ((0:ℕ), (0:ℕ))]).fn 0 = 0 := by
    rw [accumulate_fn]
    simp only [List.map_cons, List.map_nil, List.sum_cons, List.sum_nil, countFN,
      countP_replicate]
    norm_num
  have hval : class_wise_IU_f64 1 [List.replicate 16384 ((0:ℕ), (0:ℕ))] = [1] := by
    simp only [class_wise_IU_f64, show List.range 1 = [0] from rfl, List.map_cons,
      List.map_nil]
    rw [htp, hfp, hfn]
    norm_num
    rw [fl_guard_absorbed]
    norm_num [fl_one]
  refine ⟨hval, ?_⟩
  intro hall
  have hmem : (1:ℚ) ∈ class_wise_IU_f64 1 [List.replicate 16384 ((0:ℕ), (0:ℕ))] := by
    rw [hval]
    exact List.mem_singleton_self 1
  exact absurd (hall 1 hmem).2 (lt_irrefl 1)

/-- C10 (amended): the ground-truth pixels of a class are exactly partitioned
into true positives and false negatives (`n_pixels = tp + fn` throughout the
accumulation), and — for runs whose per-class counter sums stay below `2^53`,
where float64 holds them exactly — every class-wise IoU value lies in
`[0, 1]`; the endpoint `1.0` is attainable because float64 rounding absorbs
the `1e-12` guard (see `class_wise_IU_f64_reaches_one`). -/
theorem evaluate_segmentation_pixel_partition (n : ℕ) (data : List PixelPairs)
    (hsize : ∀ c, c < n → (accumulateCounters data).tp c + (accumulateCounters data).fp c
      + (accumulateCounters data).fn c < 2 ^ 53) :
    (∀ c, (accumulateCounters data).n_pixels c
        = (accumulateCounters data).tp c + (accumulateCounters data).fn c) ∧
    ∀ x ∈ class_wise_IU_f64 n data, 0 ≤ x ∧ x ≤ 1 := by
  constructor
  · intro c
    rw [accumulate_n_pixels, accumulate_tp, accumulate_fn, ← sum_map_add_counts]
    refine congrArg List.sum (List.map_congr_left (fun px _ => ?_))
    exact countGT_eq_countTP_add_countFN c px
  · intro x hx
    simp only [class_wise_IU_f64] at hx
    obtain ⟨c, hc, hxeq⟩ := List.mem_map.mp hx
    rw [List.mem_range] at hc
    subst hxeq
    have hS := hsize c hc
    set T := (accumulateCounters data).tp c with hT
    set F := (accumulateCounters data).fp c with hF
    set N := (accumulateCounters data).fn c with hN
    by_cases hS0 : T + F + N = 0
    · have hT0 : T = 0 := by omega
      rw [hT0]
      simp [fl_zero]
    · have hS1 : 1 ≤ T + F + N := by omega
      have hden := fl_add_eps_ge (T + F + N) hS1 hS
      have hcast : ((T + F + N : ℕ) : ℚ) = (T:ℚ) + (F:ℚ) + (N:ℚ) := by push_cast; ring
      rw [hcast] at hden
      have hpos : (0:ℚ) < (T:ℚ) + (F:ℚ) + (N:ℚ) := by
        have h1 : (1:ℚ) ≤ ((T + F + N : ℕ):ℚ) := by exact_mod_cast hS1
        rw [hcast] at h1
        linarith
      have hdpos : 0 < fl ((T:ℚ) + (F:ℚ) + (N:ℚ) + eps64) := lt_of_lt_of_le hpos hden
      have hq0 : 0 ≤ (T:ℚ) / fl ((T:ℚ) + (F:ℚ) + (N:ℚ) + eps64) :=
        div_nonneg (Nat.cast_nonneg T) hdpos.le
      have hq1 : (T:ℚ) / fl ((T:ℚ) + (F:ℚ) + (N:ℚ) + eps64) ≤ 1 := by
        rw [div_le_one hdpos]
        have hF0 : (0:ℚ) ≤ (F:ℚ) := Nat.cast_nonneg F
        have hN0 : (0:ℚ) ≤ (N:ℚ) := Nat.cast_nonneg N
        linarith
      exact ⟨fl_nonneg _ hq0, fl_le_one _ hq0 hq1⟩

/-- Witness for C10 (amended) at the spec's example stream: the counter sums
are tiny, the partition holds and every float64 class-wise IoU is in `[0, 1]`. -/
theorem evaluate_segmentation_pixel_partition_witness :
    (∀ c, c < 2 → (accumulateCounters exampleData).tp c
        + (accumulateCounters exampleData).fp c
        + (accumulateCounters exampleData).fn c < 2 ^ 53) ∧
    ((∀ c, (accumulateCounters exampleData).n_pixels c
        = (accumulateCounters exampleData).tp c + (accumulateCounters exampleData).fn c) ∧
     ∀ x ∈ class_wise_IU_f64 2 exampleData, 0 ≤ x ∧ x ≤ 1) :=
  ⟨by decide, evaluate_segmentation_pixel_partition 2 exampleData (by decide)⟩

end Predict
